import Mathlib

/-!
Shallow embedding of the 2i2c roadmap build plugins:
the GitHub issue-link transform (GraphQL batching, REST fallback,
persisted cache, link decoration) and the GitHub handle-mention
transform (regex scanning of text nodes, cite-node handling,
text-node splicing).  Text is modelled as `List Char`; repository
slugs as `String`.
-/

/-- ASCII alphanumeric, the `[A-Za-z0-9]` class of `HANDLE_REGEX`. -/
def isAlnumCh (c : Char) : Bool :=
  ('A' ≤ c && c ≤ 'Z') || ('a' ≤ c && c ≤ 'z') || ('0' ≤ c && c ≤ '9')

/-- Whitespace, the `\s` class (ASCII portion). -/
def isWsCh (c : Char) : Bool :=
  c == ' ' || c == '\t' || c == '\n' || c == '\r' || c == '\x0b' || c == '\x0c'

/-- The `(^|\s|[(\[])` left-context class of `HANDLE_REGEX`, character case. -/
def isBoundaryCh (c : Char) : Bool :=
  isWsCh c || c == '(' || c == '['

/-- Model of `value.slice(a, b)` on a character list. -/
def sliceL (v : List Char) (a b : Nat) : List Char :=
  (v.drop a).take (b - a)

/-- Model of `String.prototype.toLowerCase` (ASCII as used on handles). -/
def lowerL (cs : List Char) : List Char := cs.map Char.toLower

/-- Model of `String.prototype.toUpperCase` (ASCII as used on issue states). -/
def upperL (cs : List Char) : List Char := cs.map Char.toUpper

/-- Drop trailing hyphens: the backtracking of
`[A-Za-z0-9](?:[A-Za-z0-9-]{0,37}[A-Za-z0-9])?` never ends a match on `-`. -/
def dropTrailingHyphens (cs : List Char) : List Char :=
  (cs.reverse.dropWhile (· == '-')).reverse

/-- Greedy match of the handle group `[A-Za-z0-9](?:[A-Za-z0-9-]{0,37}[A-Za-z0-9])?`
of `HANDLE_REGEX` against the characters that follow the `@`:
the longest run of `[A-Za-z0-9-]` starting with an alphanumeric,
capped at 39 characters, trimmed so it does not end in a hyphen. -/
def handleAt (cs : List Char) : Option (List Char) :=
  match cs with
  | [] => none
  | c :: _ =>
    if isAlnumCh c then
      some (dropTrailingHyphens ((cs.takeWhile (fun d => isAlnumCh d || d == '-')).take 39))
    else none

/-- One attempt of `HANDLE_REGEX` at absolute position `q` of `s`
(the regex engine tries the alternatives `^`, `\s`, `[(\[]` in order).
Returns `(index of the @, matched handle)` on success. -/
def matchAt (s : List Char) (q : Nat) : Option (Nat × List Char) :=
  if q == 0 && s.get? 0 == some '@' && (handleAt (s.drop 1)).isSome then
    (handleAt (s.drop 1)).map (fun h => (0, h))
  else
    match s.get? q, s.get? (q + 1) with
    | some c, some a =>
      if isBoundaryCh c && a == '@' then
        (handleAt (s.drop (q + 2))).map (fun h => (q + 1, h))
      else none
    | _, _ => none

/-- The `while ((match = HANDLE_REGEX.exec(value)) !== null)` loop:
advance position by one until a match, emit it, resume at `lastIndex`
(the index just past the matched handle).  `fuel` bounds the recursion;
`s.length + 1` is always enough because the position strictly increases. -/
def scanAux (s : List Char) : Nat → Nat → List (Nat × List Char)
  | 0, _ => []
  | fuel + 1, q =>
    if s.length ≤ q then []
    else
      match matchAt s q with
      | some (st, h) => (st, h) :: scanAux s fuel (st + 1 + h.length)
      | none => scanAux s fuel (q + 1)

/-- All matches of the global `HANDLE_REGEX` over `s`, as
`(index of @, handle)` pairs. -/
def handleRegexScan (s : List Char) : List (Nat × List Char) :=
  scanAux s (s.length + 1) 0

/-- One hit of `collectTextMentions`: `{ start, end, handle, raw }`. -/
structure Hit where
  start : Nat
  stop : Nat
  handle : List Char
  raw : List Char
deriving Repr, DecidableEq

/-- The hit list built by `collectTextMentions` for one text node:
every regex match whose lower-cased handle is not in `resolved`,
with `start` the index of the `@`, `stop` (source: `end`)
`start + handle.length + 1`, and `raw = value.slice(start, end)`. -/
def collectHits (value : List Char) (resolved : List (List Char)) : List Hit :=
  (handleRegexScan value).filterMap (fun m =>
    if resolved.contains (lowerL m.2) then none
    else some ⟨m.1, m.1 + m.2.length + 1, m.2, sliceL value m.1 (m.1 + m.2.length + 1)⟩)

/-- A resolved user profile, the value returned by `fetchHandle`:
`{ login, url }`. -/
structure Profile where
  login : List Char
  url : List Char
deriving Repr, DecidableEq

/-- Output nodes of the handle transform's text splicing: the splice
produces only plain text nodes and the link nodes of `createLinkNode`. -/
inductive MNode where
  | text (value : List Char)
  | link (url : List Char) (title : List Char) (login : List Char) (children : List MNode)
deriving Repr

/-- Model of `createLinkNode(profile, text)`: a link node with the profile URL,
a `GitHub profile for <login>` title, the matched text as its only child,
and the `github-handle-link` class / `data-github-user` property
(the latter two are carried by the `login` field here). -/
def createLinkNode (profile : Profile) (text : List Char) : MNode :=
  MNode.link profile.url ("GitHub profile for ".toList ++ profile.login) profile.login
    [MNode.text text]

/-- Association-list lookup standing for `Map.prototype.get`. -/
def lookupProf (profiles : List (List Char × Profile)) (k : List Char) : Option Profile :=
  match profiles with
  | [] => none
  | (k', p) :: rest => if k' = k then some p else lookupProf rest k

/-- The loop body of `replaceTextNode`: walk the hits keeping a cursor;
a hit without a resolved profile is skipped; a resolved hit first flushes
the text between the cursor and the hit, then emits the link node and
moves the cursor to the hit's end; the tail text after the last cursor
position is flushed at the end. -/
def buildParts (value : List Char) (profiles : List (List Char × Profile)) :
    List Hit → Nat → List MNode
  | [], cursor =>
    if cursor < value.length then [MNode.text (value.drop cursor)] else []
  | hit :: rest, cursor =>
    match lookupProf profiles (lowerL hit.handle) with
    | none => buildParts value profiles rest cursor
    | some p =>
      (if cursor < hit.start then [MNode.text (sliceL value cursor hit.start)] else []) ++
        createLinkNode p hit.raw :: buildParts value profiles rest hit.stop

/-- Model of `replaceTextNode({node, parent, hits, value}, profiles)`: the list of
nodes spliced into the parent in place of the original text node. -/
def replaceTextNode (value : List Char) (hits : List Hit)
    (profiles : List (List Char × Profile)) : List MNode :=
  buildParts value profiles hits 0

/-- Visible text of one spliced node: a text node shows its value, a link
node shows the text of its children (the links built here have a single
text child). -/
def visText : MNode → List Char
  | MNode.text v => v
  | MNode.link _ _ _ children =>
    (children.map (fun c =>
      match c with
      | MNode.text v => v
      | MNode.link _ _ _ _ => [])).flatten

/-- Concatenated visible text of a whole spliced list. -/
def visTextAll (parts : List MNode) : List Char :=
  (parts.map visText).flatten

/-- Whether a spliced node is a link node. -/
def isLinkNode : MNode → Bool
  | MNode.text _ => false
  | MNode.link _ _ _ _ => true

/-- Model of `SIMPLE_HANDLE = /^[A-Za-z0-9](?:[A-Za-z0-9-]{0,37}[A-Za-z0-9])?$/`:
1 to 39 characters of alphanumerics and hyphens, first and last
alphanumeric. -/
def simpleHandle (cs : List Char) : Bool :=
  match cs with
  | [] => false
  | c :: rest =>
    match rest.reverse with
    | [] => isAlnumCh c
    | lastC :: midRev =>
      isAlnumCh c && isAlnumCh lastC && decide (cs.length ≤ 39) &&
        midRev.all (fun d => isAlnumCh d || d == '-')

/-- Model of `value.replace(/^@/, '')`: strip one leading `@` if present. -/
def stripLeadingAt : List Char → List Char
  | '@' :: rest => rest
  | cs => cs

/-- JavaScript `a || b` on strings: `a` unless it is empty. -/
def firstNonempty (a b : List Char) : List Char :=
  if a = [] then b else a

/-- What `collectCiteMentions` decides for one cite node. -/
inductive CollectAction where
  | skip
  | demote (value : List Char)
  | mention (handle lower label : List Char)
deriving Repr

/-- The body of the `collectCiteMentions` visitor for one `cite` node:
`label = node.label || node.identifier || ''`,
`handle = (node.identifier || label || '').replace(/^@/, '')`;
an empty handle is skipped; a handle failing `SIMPLE_HANDLE` or already
resolved upstream is demoted in place to the text `@<label || handle>`;
otherwise a mention record is emitted for the fetch phase. -/
def collectCiteAction (resolved : List (List Char)) (labelF identifierF : List Char) :
    CollectAction :=
  let label := firstNonempty labelF identifierF
  let handle := stripLeadingAt (firstNonempty identifierF label)
  let lower := lowerL handle
  if handle = [] then CollectAction.skip
  else if !simpleHandle handle || resolved.contains lower then
    CollectAction.demote ('@' :: firstNonempty label handle)
  else CollectAction.mention handle lower (firstNonempty label handle)

/-- End-to-end fate of one cite node after both phases. -/
inductive CiteOutcome where
  | unchangedCite
  | demoted (value : List Char)
  | linked (node : MNode)
deriving Repr

/-- Model of `replaceCiteNode({node, parent, lower, label}, profiles)`: a mention
whose profile resolved is replaced wholesale by
`createLinkNode(profile, "@" + label)`; one whose profile is absent is
left untouched (it stays a cite node). -/
def replaceCiteAction (profiles : List (List Char × Profile)) :
    CollectAction → CiteOutcome
  | CollectAction.skip => CiteOutcome.unchangedCite
  | CollectAction.demote v => CiteOutcome.demoted v
  | CollectAction.mention _ lower label =>
    match lookupProf profiles lower with
    | some p => CiteOutcome.linked (createLinkNode p ('@' :: label))
    | none => CiteOutcome.unchangedCite

/-- Composition of the two phases for one cite node. -/
def processCiteNode (resolved : List (List Char)) (profiles : List (List Char × Profile))
    (labelF identifierF : List Char) : CiteOutcome :=
  replaceCiteAction profiles (collectCiteAction resolved labelF identifierF)

/-- Bool classifier: did the cite node end up demoted to a text node. -/
def isDemotedOutcome : CiteOutcome → Bool
  | CiteOutcome.demoted _ => true
  | _ => false

/-- Bool classifier: did the cite node end up replaced by a link node. -/
def isLinkedOutcome : CiteOutcome → Bool
  | CiteOutcome.linked _ => true
  | _ => false

/-- Accumulator worker for `splitWs`: `acc` holds the current token
reversed; whitespace flushes it, other characters extend it. -/
def splitWsAux : List Char → List Char → List (List Char)
  | [], acc => if acc = [] then [] else [acc.reverse]
  | c :: rest, acc =>
    if isWsCh c then
      if acc = [] then splitWsAux rest [] else acc.reverse :: splitWsAux rest []
    else splitWsAux rest (c :: acc)

/-- Model of `str.split(/\s+/).filter(Boolean)`: the whitespace-separated tokens
of a string, empty tokens discarded. -/
def splitWs (cs : List Char) : List (List Char) :=
  splitWsAux cs []

/-- Model of `Array.from(set).join(' ')`: tokens joined by single spaces. -/
def joinSpace : List (List Char) → List Char
  | [] => []
  | [w] => w
  | w :: ws => w ++ ' ' :: joinSpace ws

/-- One insertion into a JavaScript `Set`: appended only if absent,
first occurrence kept. -/
def insertClass (acc : List (List Char)) (x : List Char) : List (List Char) :=
  if x ∈ acc then acc else acc ++ [x]

/-- Model of `new Set(list)` materialised back with `Array.from`: first-occurrence
order, duplicates dropped. -/
def dedupFirst (l : List (List Char)) : List (List Char) :=
  l.foldl insertClass []

/-- The `ResolvedDetail` of the issue-link transform:
`{ title, state, state_reason }` (the REST and GraphQL paths both
lower-case `state` before caching). -/
structure Details where
  title : List Char
  state : List Char
  state_reason : List Char
deriving Repr, DecidableEq

/-- The mutable fields of a link node touched by `applyLinkMetadata`:
the three class slots (`node.data.hProperties.class`,
`node.data.hProperties.className`, `node.class`), the data attributes and
the `title`.  Absent string fields are the empty string (falsy). -/
structure LinkNode where
  propsClass : List Char
  propsClassName : List Char
  nodeClass : List Char
  dataState : List Char
  dataStateReason : Option (List Char)
  dataIssueTitle : List Char
  title : List Char
deriving Repr, DecidableEq

/-- The string the source splits for existing classes:
`` `${props.class || props.className || ''} ${node.class || ''}` ``. -/
def existingClassStr (node : LinkNode) : List Char :=
  firstNonempty node.propsClass node.propsClassName ++ ' ' :: node.nodeClass

/-- Model of `applyLinkMetadata(node, details)` from the issue-link transform:
merge the existing class tokens with `github-issue-link` and
`github-issue-link--<state>` through a `Set`, write the joined string to
all three class slots, refresh the data attributes, and synthesize
`title` as `"<title> (<STATE>)"` only when the node has none. -/
def applyLinkMetadata (node : LinkNode) (details : Details) : LinkNode :=
  let existingClasses := splitWs (existingClassStr node)
  let merged := dedupFirst (existingClasses ++
    ["github-issue-link".toList, "github-issue-link--".toList ++ details.state])
  let classString := joinSpace merged
  { propsClass := classString
    propsClassName := classString
    nodeClass := classString
    dataState := details.state
    dataStateReason := if details.state_reason = [] then none else some details.state_reason
    dataIssueTitle := details.title
    title :=
      if node.title = [] then details.title ++ " (".toList ++ upperL details.state ++ [')']
      else node.title }

/-- The class tokens actually carried by a node's `class` attribute. -/
def classListOf (node : LinkNode) : List (List Char) :=
  splitWs node.nodeClass

/-- Model of `SKIP_PARENTS = new Set(['link', 'definition', 'inlineCode', 'code'])`. -/
def skipParents : List String := ["link", "definition", "inlineCode", "code"]

/-- A generic document-tree node: `type`, node text `value` (text nodes),
ordered `children`. -/
inductive HNode where
  | mk (ty : String) (value : List Char) (children : List HNode)
deriving Repr

/-- The `type` field of a tree node. -/
def HNode.ty : HNode → String
  | HNode.mk t _ _ => t

/-- The `value` field of a tree node. -/
def HNode.value : HNode → List Char
  | HNode.mk _ v _ => v

/-- The `children` field of a tree node. -/
def HNode.children : HNode → List HNode
  | HNode.mk _ _ c => c

/-- One record of the `mentions` array of `collectTextMentions`:
the owning parent's type, the node's text and its hit list. -/
structure TreeMention where
  parentTy : Option String
  value : List Char
  hits : List Hit
deriving Repr, DecidableEq

mutual
/-- The `visit` walk of `collectTextMentions` from one node whose parent
has type `pTy` (`none` at the root): a text node containing `@` whose
parent is not in `SKIP_PARENTS` and whose hit list is non-empty
contributes one mention record; children are visited with this node as
parent. -/
def collectTextMentionsAux (resolved : List (List Char)) (pTy : Option String) :
    HNode → List TreeMention
  | HNode.mk ty value children =>
    (if ty = "text" && value.contains '@' &&
        (match pTy with
         | some t => !skipParents.contains t
         | none => true) &&
        !(collectHits value resolved).isEmpty then
      [⟨pTy, value, collectHits value resolved⟩]
    else []) ++ collectTextMentionsList resolved ty children

/-- Visit of a child list, each child seeing `pTy` as its parent type. -/
def collectTextMentionsList (resolved : List (List Char)) (pTy : String) :
    List HNode → List TreeMention
  | [] => []
  | c :: cs =>
    collectTextMentionsAux resolved (some pTy) c ++ collectTextMentionsList resolved pTy cs
end

/-- Model of `collectTextMentions(root, resolved)` over the whole tree. -/
def collectTextMentionsTree (resolved : List (List Char)) (root : HNode) :
    List TreeMention :=
  collectTextMentionsAux resolved none root

mutual
/-- Conversion of spliced `MNode`s back into generic tree nodes. -/
def mnodeToH : MNode → HNode
  | MNode.text v => HNode.mk "text" v []
  | MNode.link _ _ _ children => HNode.mk "link" [] (mnodeToHList children)

/-- Conversion of a spliced `MNode` list. -/
def mnodeToHList : List MNode → List HNode
  | [] => []
  | m :: ms => mnodeToH m :: mnodeToHList ms
end

mutual
/-- The effect of one handle-transform pass on the tree: every collected
text mention is spliced in place through `replaceTextNode`; text children
of a `SKIP_PARENTS` parent, and text without hits, stay in place. -/
def rewriteTreeNode (resolved : List (List Char)) (profiles : List (List Char × Profile)) :
    HNode → HNode
  | HNode.mk ty value children =>
    HNode.mk ty value (rewriteChildren resolved profiles ty children)

/-- Rewrite of the children of a node of type `pTy`: a text child with a
non-empty hit list under a non-skip parent is replaced by its spliced
parts; every other child is rewritten recursively. -/
def rewriteChildren (resolved : List (List Char)) (profiles : List (List Char × Profile))
    (pTy : String) : List HNode → List HNode
  | [] => []
  | c :: cs =>
    (if c.ty = "text" && c.value.contains '@' && !skipParents.contains pTy &&
        !(collectHits c.value resolved).isEmpty then
      mnodeToHList (replaceTextNode c.value (collectHits c.value resolved) profiles)
    else [rewriteTreeNode resolved profiles c]) ++ rewriteChildren resolved profiles pTy cs
end

/-- What one attempted read of the persisted cache file can yield:
the file is absent (`ENOENT`), unreadable or unparsable, or a JSON
object of key/detail entries. -/
inductive FileContent where
  | absent
  | invalid
  | valid (entries : List (String × Details))
deriving Repr

/-- Association-list store standing for the `issueCache` `Map`. -/
def lookupCache (cache : List (String × Details)) (k : String) : Option Details :=
  match cache with
  | [] => none
  | (k', d) :: rest => if k' = k then some d else lookupCache rest k

/-- Model of `issueCache.set(key, value)`: overwrite-or-append. -/
def setCache (cache : List (String × Details)) (k : String) (d : Details) :
    List (String × Details) :=
  match cache with
  | [] => [(k, d)]
  | (k', d') :: rest => if k' = k then (k, d) :: rest else (k', d') :: setCache rest k d

/-- The module state touched by `loadPersistentCache`: whether
`cacheReady` has been assigned, the in-memory `issueCache`, how many
file reads were performed, and whether a warning was logged. -/
structure CacheState where
  started : Bool
  cache : List (String × Details)
  reads : Nat
  warned : Bool
deriving Repr

/-- The module state before any call: `cacheReady` unset, empty map. -/
def initCacheState : CacheState :=
  { started := false, cache := [], reads := 0, warned := false }

/-- One call of `loadPersistentCache()`: if `cacheReady` is set, return at
once; otherwise read the file exactly once — `ENOENT` is silently treated
as an empty cache, any other read/parse failure only logs a warning, and
a parsed object is merged entry-by-entry into `issueCache`.  No branch
throws. -/
def loadPersistentCache (fs : FileContent) (s : CacheState) : CacheState :=
  if s.started then s
  else
    match fs with
    | FileContent.absent =>
      { started := true, cache := s.cache, reads := s.reads + 1, warned := s.warned }
    | FileContent.invalid =>
      { started := true, cache := s.cache, reads := s.reads + 1, warned := true }
    | FileContent.valid entries =>
      { started := true
        cache := entries.foldl (fun c e => setCache c e.1 e.2) s.cache
        reads := s.reads + 1
        warned := s.warned }

/-- Model of `MAX_REPOS_PER_QUERY = 5`. -/
def MAX_REPOS_PER_QUERY : Nat := 5

/-- Model of `MAX_ISSUES_PER_REPO = 20`. -/
def MAX_ISSUES_PER_REPO : Nat := 20

/-- Fuel-indexed worker for `chunkArray`; the fuel is the list length,
always sufficient because each step consumes at least one element. -/
def chunkArrayAux (k : Nat) : Nat → List α → List (List α)
  | _, [] => []
  | 0, _ :: _ => []
  | fuel + 1, a :: rest => (a :: rest).take k :: chunkArrayAux k fuel ((a :: rest).drop k)

/-- Model of `chunkArray(array, chunkSize)`: successive slices of `chunkSize`
elements.  The source only calls it with sizes 20 and 5; size 0 (an
infinite loop in the source) is mapped to `[]`. -/
def chunkArray (l : List α) (k : Nat) : List (List α) :=
  if k = 0 then [] else chunkArrayAux k l.length l

/-- One step of JavaScript insertion sort comparator `(a, b) => a - b`. -/
def insertSorted (n : Nat) : List Nat → List Nat
  | [] => [n]
  | m :: ms => if n ≤ m then n :: m :: ms else m :: insertSorted n ms

/-- Model of `numbers.sort((a, b) => a - b)`: ascending numeric sort. -/
def sortNats (l : List Nat) : List Nat := l.foldr insertSorted []

/-- One `(repoSlug, issueNumber)` request of the batched resolver. -/
structure IssueReq where
  repoSlug : String
  issueNumber : Nat
deriving Repr, DecidableEq

/-- Model of `Set.prototype.add`: append the number unless already present. -/
def addNumber (ns : List Nat) (n : Nat) : List Nat :=
  if n ∈ ns then ns else ns ++ [n]

/-- One request folded into the `repoToNumbers` map: an existing
repository's number set grows in place, a new repository is appended. -/
def insertReq (acc : List (String × List Nat)) (r : IssueReq) : List (String × List Nat) :=
  match acc with
  | [] => [(r.repoSlug, [r.issueNumber])]
  | (s, ns) :: rest =>
    if s = r.repoSlug then (s, addNumber ns r.issueNumber) :: rest
    else (s, ns) :: insertReq rest r

/-- The `repoToNumbers` map of `fetchIssuesGraphQL`: requests grouped by
repository slug in first-appearance order, each repository carrying its
set of distinct issue numbers in first-appearance order. -/
def repoToNumbers (reqs : List IssueReq) : List (String × List Nat) :=
  reqs.foldl insertReq []

/-- The `repoEntries` array: per repository, the sorted distinct numbers
chunked into groups of `MAX_ISSUES_PER_REPO`, one entry per chunk. -/
def repoEntries (reqs : List IssueReq) : List (String × List Nat) :=
  ((repoToNumbers reqs).map (fun g =>
    (chunkArray (sortNats g.2) MAX_ISSUES_PER_REPO).map (fun c => (g.1, c)))).flatten

/-- The number of batched GraphQL round trips `fetchIssuesGraphQL`
performs: nothing on an empty request list, otherwise one request per
chunk of `MAX_REPOS_PER_QUERY` repository entries. -/
def fetchIssuesGraphQLRequestCount (reqs : List IssueReq) : Nat :=
  if reqs.isEmpty then 0
  else (chunkArray (repoEntries reqs) MAX_REPOS_PER_QUERY).length

/-- Model of `` `${repoSlug}#${issueNumber}` ``, the cache key of one identity. -/
def issueKey (r : String) (n : Nat) : String :=
  r ++ "#" ++ toString n

/-- The aliases of all batched queries, in query order: for each chunk of
repository entries one query, inside it one alias per (repository chunk,
issue number).  Each alias is one remote issue lookup. -/
def graphQLAliases (reqs : List IssueReq) : List (String × Nat) :=
  ((chunkArray (repoEntries reqs) MAX_REPOS_PER_QUERY).map (fun chunk =>
    (chunk.map (fun e => e.2.map (fun n => (e.1, n)))).flatten)).flatten

/-- The cache effect of `fetchIssuesGraphQL`: the remote (modelled by the
per-alias oracle `g`; a failed chunk request or a null alias is `none`)
answers each alias, and every non-null answer is written through
`cacheIssueDetails`. -/
def fetchIssuesGraphQL (g : String → Nat → Option Details) (reqs : List IssueReq)
    (cache : List (String × Details)) : List (String × Details) :=
  (graphQLAliases reqs).foldl (fun c a =>
    match g a.1 a.2 with
    | some d => setCache c (issueKey a.1 a.2) d
    | none => c) cache

/-- The two phases of remote traffic of one `ensureIssueDetails` call:
the aliases of the batched GraphQL phase and the single-issue REST
fallback fetches, each entry one remote lookup. -/
structure FetchLog where
  gql : List (String × Nat)
  rest : List (String × Nat)
deriving Repr, DecidableEq

/-- Model of `ensureIssueDetails(requests)` after the persisted cache is loaded
(`cache0` is the loaded `issueCache`): filter out cached identities,
run the batched GraphQL phase over the misses, re-filter, then call
`fetchIssueREST` once per remaining element of the miss list (the REST
oracle `rfb`; a success is cached through `cacheIssueDetails`).
Returns the final cache and the log of remote lookups. -/
def ensureIssueDetails (g rfb : String → Nat → Option Details)
    (requests : List IssueReq) (cache0 : List (String × Details)) :
    List (String × Details) × FetchLog :=
  if requests.isEmpty then (cache0, ⟨[], []⟩)
  else
    let missing1 := requests.filter (fun q =>
      (lookupCache cache0 (issueKey q.repoSlug q.issueNumber)).isNone)
    if missing1.isEmpty then (cache0, ⟨[], []⟩)
    else
      let cache1 := fetchIssuesGraphQL g missing1 cache0
      let missing2 := missing1.filter (fun q =>
        (lookupCache cache1 (issueKey q.repoSlug q.issueNumber)).isNone)
      let cache2 := missing2.foldl (fun c q =>
        match rfb q.repoSlug q.issueNumber with
        | some d => setCache c (issueKey q.repoSlug q.issueNumber) d
        | none => c) cache1
      (cache2, ⟨graphQLAliases missing1, missing2.map (fun q => (q.repoSlug, q.issueNumber))⟩)

/-- How many remote lookups a log records for one identity. -/
def countId (log : List (String × Nat)) (r : String) (n : Nat) : Nat :=
  log.count (r, n)

/-- Well-formedness of a scan result relative to a start position `q`:
matches come in order, each starting at or after `q`, each an `@` at a
real position of `s` whose handle is exactly the following characters,
and each next match starts after the previous one ends. -/
def PairsValid (s : List Char) : Nat → List (Nat × List Char) → Prop
  | _, [] => True
  | q, (st, h) :: rest =>
    q ≤ st ∧ st + 1 + h.length ≤ s.length ∧ s.get? st = some '@' ∧
    (s.drop (st + 1)).take h.length = h ∧ PairsValid s (st + 1 + h.length) rest

/-- Well-formedness of a hit list relative to a cursor: ordered,
non-overlapping, in bounds, with `raw` the exact matched slice. -/
def ValidFrom (value : List Char) : Nat → List Hit → Prop
  | _, [] => True
  | cursor, hit :: rest =>
    cursor ≤ hit.start ∧ hit.start < hit.stop ∧ hit.stop ≤ value.length ∧
    hit.raw = sliceL value hit.start hit.stop ∧ ValidFrom value hit.stop rest

/-- The cite-node `label` variable: `node.label || node.identifier || ''`. -/
def citeLabelOf (labelF identifierF : List Char) : List Char :=
  firstNonempty labelF identifierF

/-- The cite-node `handle` variable:
`(node.identifier || label || '').replace(/^@/, '')`. -/
def citeHandleOf (labelF identifierF : List Char) : List Char :=
  stripLeadingAt (firstNonempty identifierF (citeLabelOf labelF identifierF))

/-! ### Theorems -/

theorem loadPersistentCache_started (fs : FileContent) (s : CacheState) :
    (loadPersistentCache fs s).started = true := by
  unfold loadPersistentCache
  by_cases hs : s.started
  · simp [hs]
  · simp [hs]; cases fs <;> simp

theorem loadPersistentCache_fixed (fs : FileContent) (s : CacheState)
    (hs : s.started = true) : loadPersistentCache fs s = s := by
  unfold loadPersistentCache
  simp [hs]

/-- C8: the persisted-cache load is idempotent: however many times
`loadPersistentCache` runs from a fresh module state, at most one file
read happens, every call after the first returns the state of the first
unchanged (all callers converge on that one load), and an absent cache
file yields an empty cache with no warning and no error. -/
theorem loadPersistentCache_idempotent (fs : FileContent) (n : Nat) :
    ((loadPersistentCache fs)^[n] initCacheState).reads ≤ 1 ∧
    (loadPersistentCache fs)^[n + 1] initCacheState = loadPersistentCache fs initCacheState ∧
    ((loadPersistentCache FileContent.absent)^[n] initCacheState).cache = [] ∧
    ((loadPersistentCache FileContent.absent)^[n] initCacheState).warned = false := by
  have key : ∀ (fs' : FileContent) (m : Nat),
      (loadPersistentCache fs')^[m + 1] initCacheState =
        loadPersistentCache fs' initCacheState := by
    intro fs' m
    induction m with
    | zero => rfl
    | succ k ih =>
      rw [Function.iterate_succ_apply', ih, loadPersistentCache_fixed]
      exact loadPersistentCache_started fs' initCacheState
  refine ⟨?_, key fs n, ?_, ?_⟩
  · cases n with
    | zero => simp [initCacheState]
    | succ k =>
      rw [key fs k]
      unfold loadPersistentCache initCacheState
      cases fs <;> simp
  · cases n with
    | zero => rfl
    | succ k =>
      rw [key FileContent.absent k]
      rfl
  · cases n with
    | zero => rfl
    | succ k =>
      rw [key FileContent.absent k]
      rfl

/-- C7: `applyLinkMetadata` synthesizes `node.title` as
`"<title> (<STATE>)"` exactly when the node carries no title, and leaves
a pre-existing (human-authored) title unchanged. -/
theorem applyLinkMetadata_title (node : LinkNode) (details : Details) :
    (applyLinkMetadata node details).title =
      if node.title = [] then
        details.title ++ " (".toList ++ upperL details.state ++ [')']
      else node.title := rfl

/-- C1: evaluation at the failing input.  Two occurrences of the same
identity `a/b#1` in one pass, with the batched GraphQL phase resolving
nothing (e.g. a failed batch request) and the REST fallback succeeding:
the batched phase queries the identity once (the `Set`-based grouping
dedups it), but the fallback loop then issues one REST lookup per
occurrence — two REST fetches — instead of the single remote lookup the
dedup property promises. -/
theorem ensureIssueDetails_duplicate_lookups :
    countId (ensureIssueDetails (fun _ _ => none)
        (fun _ _ => some ⟨"Add retries".toList, "open".toList, []⟩)
        [⟨"a/b", 1⟩, ⟨"a/b", 1⟩] []).2.gql "a/b" 1 = 1 ∧
    countId (ensureIssueDetails (fun _ _ => none)
        (fun _ _ => some ⟨"Add retries".toList, "open".toList, []⟩)
        [⟨"a/b", 1⟩, ⟨"a/b", 1⟩] []).2.rest "a/b" 1 = 2 := by
  constructor <;> rfl

/-- C6 counterexample: a cite node with the valid handle `octocat` whose
remote lookup fails (no profile resolved) is left as a cite node — it is
neither demoted to a plain text node nor linked, contradicting the claim
that failed cite nodes are demoted to text. -/
theorem processCiteNode_unresolved_stays_cite :
    processCiteNode [] [] "octocat".toList "octocat".toList = CiteOutcome.unchangedCite ∧
    isDemotedOutcome (processCiteNode [] [] "octocat".toList "octocat".toList) = false ∧
    isLinkedOutcome (processCiteNode [] [] "octocat".toList "octocat".toList) = false :=
  ⟨rfl, rfl, rfl⟩

/-- C6 (amended): a cite node whose handle passes the identifier grammar,
is not already resolved upstream, and whose profile lookup succeeds is
replaced wholesale by the equivalent link node; one whose handle fails
the grammar or is already resolved upstream is demoted at collection time
to a plain text node carrying the original `@label` mention syntax; one
whose remote lookup fails is left unchanged as a cite node. -/
theorem processCiteNode_outcomes (resolved : List (List Char))
    (profiles : List (List Char × Profile)) (labelF identifierF : List Char) :
    (∀ p, citeHandleOf labelF identifierF ≠ [] →
      simpleHandle (citeHandleOf labelF identifierF) = true →
      lowerL (citeHandleOf labelF identifierF) ∉ resolved →
      lookupProf profiles (lowerL (citeHandleOf labelF identifierF)) = some p →
      processCiteNode resolved profiles labelF identifierF =
        CiteOutcome.linked (createLinkNode p
          ('@' :: firstNonempty (citeLabelOf labelF identifierF)
            (citeHandleOf labelF identifierF)))) ∧
    (citeHandleOf labelF identifierF ≠ [] →
      (simpleHandle (citeHandleOf labelF identifierF) = false ∨
        lowerL (citeHandleOf labelF identifierF) ∈ resolved) →
      processCiteNode resolved profiles labelF identifierF =
        CiteOutcome.demoted
          ('@' :: firstNonempty (citeLabelOf labelF identifierF)
            (citeHandleOf labelF identifierF))) ∧
    (citeHandleOf labelF identifierF ≠ [] →
      simpleHandle (citeHandleOf labelF identifierF) = true →
      lowerL (citeHandleOf labelF identifierF) ∉ resolved →
      lookupProf profiles (lowerL (citeHandleOf labelF identifierF)) = none →
      processCiteNode resolved profiles labelF identifierF = CiteOutcome.unchangedCite) := by
  simp only [processCiteNode, collectCiteAction, citeHandleOf, citeLabelOf]
  refine ⟨?_, ?_, ?_⟩
  · intro p hne hsimp hres hp
    simp [hne, hsimp, hres, replaceCiteAction, hp]
  · intro hne hcond
    rcases hcond with hc | hc
    · simp [hne, hc, replaceCiteAction]
    · simp [hne, hc, replaceCiteAction]
  · intro hne hsimp hres hp
    simp [hne, hsimp, hres, replaceCiteAction, hp]

/-- C6 witness: with one resolved profile for `octocat`, the cite node is
replaced wholesale by the equivalent link node. -/
theorem processCiteNode_outcomes_witness :
    processCiteNode []
      [("octocat".toList, ⟨"octocat".toList, "https://github.com/octocat".toList⟩)]
      "octocat".toList "octocat".toList =
      CiteOutcome.linked (createLinkNode
        ⟨"octocat".toList, "https://github.com/octocat".toList⟩ "@octocat".toList) :=
  (processCiteNode_outcomes []
    [("octocat".toList, ⟨"octocat".toList, "https://github.com/octocat".toList⟩)]
    "octocat".toList "octocat".toList).1
    ⟨"octocat".toList, "https://github.com/octocat".toList⟩
    (by decide) (by decide) (by decide) (by decide)

theorem dropWhile_append_singleton_ne (p : Char → Bool) (c : Char) (hc : p c = false)
    (l : List Char) : (l ++ [c]).dropWhile p ≠ [] := by
  induction l with
  | nil => simp [List.dropWhile, hc]
  | cons a t ih =>
    by_cases ha : p a
    · simpa [List.dropWhile_cons_of_pos ha] using ih
    · simp [List.dropWhile_cons_of_neg ha]

theorem dropTrailingHyphens_ne_nil (c : Char) (t : List Char) (hc : (c == '-') = false) :
    dropTrailingHyphens (c :: t) ≠ [] := by
  unfold dropTrailingHyphens
  intro h
  have h2 : (t.reverse ++ [c]).dropWhile (· == '-') = [] := by
    have := congrArg List.reverse h
    simpa using this
  exact dropWhile_append_singleton_ne (· == '-') c hc t.reverse h2

theorem dropTrailingHyphens_exists_append (l : List Char) :
    ∃ t, l = dropTrailingHyphens l ++ t := by
  unfold dropTrailingHyphens
  refine ⟨(l.reverse.takeWhile (· == '-')).reverse, ?_⟩
  have h2 := congrArg List.reverse
    (List.takeWhile_append_dropWhile (p := (· == '-')) (l := l.reverse))
  simp only [List.reverse_append, List.reverse_reverse] at h2
  exact h2.symm

theorem isAlnumCh_ne_hyphen (c : Char) (hc : isAlnumCh c = true) : (c == '-') = false := by
  cases hd : c == '-'
  · rfl
  · exfalso
    have hceq : c = '-' := by simpa using hd
    rw [hceq] at hc
    simp [isAlnumCh] at hc

theorem handleAt_sound (cs : List Char) (h : List Char) (hh : handleAt cs = some h) :
    h ≠ [] ∧ cs.take h.length = h := by
  cases cs with
  | nil => simp [handleAt] at hh
  | cons c rest =>
    by_cases hc : isAlnumCh c = true
    · have hh' : dropTrailingHyphens
          (((c :: rest).takeWhile (fun d => isAlnumCh d || d == '-')).take 39) = h := by
        simpa [handleAt, hc] using hh
      have htw : (c :: rest).takeWhile (fun d => isAlnumCh d || d == '-') =
          c :: rest.takeWhile (fun d => isAlnumCh d || d == '-') := by
        rw [List.takeWhile_cons]
        simp [hc]
      refine ⟨?_, ?_⟩
      · rw [← hh', htw, show (39 : Nat) = 38 + 1 from rfl, List.take_succ_cons]
        exact dropTrailingHyphens_ne_nil c _ (isAlnumCh_ne_hyphen c hc)
      · obtain ⟨t1, ht1⟩ := dropTrailingHyphens_exists_append
          (((c :: rest).takeWhile (fun d => isAlnumCh d || d == '-')).take 39)
        rw [hh'] at ht1
        have ht2 := List.take_append_drop 39
          ((c :: rest).takeWhile (fun d => isAlnumCh d || d == '-'))
        have ht3 := List.takeWhile_append_dropWhile
          (p := fun d => isAlnumCh d || d == '-') (l := c :: rest)
        generalize hgw : (c :: rest).dropWhile (fun d => isAlnumCh d || d == '-') = dw at ht3
        generalize hgt : (c :: rest).takeWhile (fun d => isAlnumCh d || d == '-') = tw
          at ht1 ht2 ht3
        have hcs : c :: rest = h ++ (t1 ++ (tw.drop 39 ++ dw)) := by
          calc c :: rest = tw ++ dw := ht3.symm
            _ = (tw.take 39 ++ tw.drop 39) ++ dw := by rw [ht2]
            _ = ((h ++ t1) ++ tw.drop 39) ++ dw := by rw [ht1]
            _ = h ++ (t1 ++ (tw.drop 39 ++ dw)) := by simp [List.append_assoc]
        rw [hcs]
        exact List.take_left' rfl
    · simp [handleAt, hc] at hh

theorem length_le_of_take_eq (l h : List Char) (ht : l.take h.length = h) :
    h.length ≤ l.length := by
  have := congrArg List.length ht
  simp [List.length_take] at this
  omega

theorem matchAt_sound (s : List Char) (q st : Nat) (h : List Char)
    (hm : matchAt s q = some (st, h)) :
    q ≤ st ∧ s.get? st = some '@' ∧ (s.drop (st + 1)).take h.length = h ∧
    st + 1 + h.length ≤ s.length ∧
    (st = 0 ∨ ∃ c, s.get? (st - 1) = some c ∧ isBoundaryCh c = true) := by
  unfold matchAt at hm
  split at hm
  case isTrue hcond =>
    simp only [Bool.and_eq_true, beq_iff_eq, Nat.beq_eq_true_eq] at hcond
    obtain ⟨⟨hq0, hat⟩, _⟩ := hcond
    rw [Option.map_eq_some'] at hm
    obtain ⟨h0, hh0, heq⟩ := hm
    obtain ⟨hst, hh⟩ : st = 0 ∧ h0 = h := by
      constructor <;> [exact (Prod.mk.injEq _ _ _ _ ▸ heq).1.symm;
        exact (Prod.mk.injEq _ _ _ _ ▸ heq).2]
    subst hst hh hq0
    have hsound := handleAt_sound _ _ hh0
    have hlen : h0.length ≤ (s.drop 1).length := length_le_of_take_eq _ _ hsound.2
    have hpos : 0 < s.length := by
      rcases List.get?_eq_some.mp hat with ⟨hlt, _⟩
      exact hlt
    simp only [List.length_drop] at hlen
    exact ⟨Nat.zero_le _, hat, hsound.2, by omega, Or.inl rfl⟩
  case isFalse hcond =>
    cases hq : s.get? q with
    | none => rw [hq] at hm; simp at hm
    | some c =>
      cases ha : s.get? (q + 1) with
      | none => rw [hq, ha] at hm; simp at hm
      | some a =>
        rw [hq, ha] at hm
        simp only [Option.map_eq_some', beq_iff_eq, Bool.and_eq_true, ite_eq_iff,
          reduceCtorEq, and_false, or_false] at hm
        obtain ⟨⟨hb, haat⟩, h0, hh0, heq⟩ := hm
        subst haat
        obtain ⟨hst, hh⟩ : q + 1 = st ∧ h0 = h := by
          constructor <;> [exact (Prod.mk.injEq _ _ _ _ ▸ heq).1;
            exact (Prod.mk.injEq _ _ _ _ ▸ heq).2]
        subst hst hh
        have hsound := handleAt_sound _ _ hh0
        have hlen : h0.length ≤ (s.drop (q + 2)).length := length_le_of_take_eq _ _ hsound.2
        have hpos : q + 1 < s.length := by
          rcases List.get?_eq_some.mp ha with ⟨hlt, _⟩
          exact hlt
        simp only [List.length_drop] at hlen
        refine ⟨by omega, ha, ?_, by omega, Or.inr ⟨c, by simpa using hq, hb⟩⟩
        show (s.drop (q + 1 + 1)).take h0.length = h0
        simpa [Nat.add_assoc] using hsound.2

theorem scanAux_mem_sound (s : List Char) :
    ∀ (fuel q : Nat) (m : Nat × List Char), m ∈ scanAux s fuel q →
      q ≤ m.1 ∧ s.get? m.1 = some '@' ∧ (s.drop (m.1 + 1)).take m.2.length = m.2 ∧
      m.1 + 1 + m.2.length ≤ s.length ∧
      (m.1 = 0 ∨ ∃ c, s.get? (m.1 - 1) = some c ∧ isBoundaryCh c = true) := by
  intro fuel
  induction fuel with
  | zero => intro q m hm; simp [scanAux] at hm
  | succ k ih =>
    intro q m hm
    rw [scanAux] at hm
    split at hm
    · simp at hm
    · split at hm
      next st h hmatch =>
        rcases List.mem_cons.mp hm with hhead | htail
        · subst hhead
          have := matchAt_sound s q _ _ hmatch
          exact ⟨this.1, this.2.1, this.2.2.1, this.2.2.2.1, this.2.2.2.2⟩
        · have hrec := ih _ m htail
          have hms := matchAt_sound s q _ _ hmatch
          exact ⟨by omega, hrec.2.1, hrec.2.2.1, hrec.2.2.2.1, hrec.2.2.2.2⟩
      next =>
        have hrec := ih (q + 1) m hm
        exact ⟨by omega, hrec.2⟩

theorem pairsValid_mono (s : List Char) (q q' : Nat) (hq : q ≤ q') :
    ∀ ps, PairsValid s q' ps → PairsValid s q ps := by
  intro ps hps
  cases ps with
  | nil => trivial
  | cons m rest =>
    obtain ⟨h1, h2⟩ := hps
    exact ⟨by omega, h2⟩

theorem scanAux_pairsValid (s : List Char) :
    ∀ (fuel q : Nat), PairsValid s q (scanAux s fuel q) := by
  intro fuel
  induction fuel with
  | zero => intro q; simp [scanAux, PairsValid]
  | succ k ih =>
    intro q
    rw [scanAux]
    split
    · simp [PairsValid]
    · split
      next st h hmatch =>
        have hms := matchAt_sound s q _ _ hmatch
        exact ⟨hms.1, hms.2.2.2.1, hms.2.1, hms.2.2.1, ih (st + 1 + h.length)⟩
      next => exact pairsValid_mono s q (q + 1) (by omega) _ (ih (q + 1))

theorem validFrom_mono (value : List Char) (q q' : Nat) (hq : q ≤ q') :
    ∀ hits, ValidFrom value q' hits → ValidFrom value q hits := by
  intro hits hh
  cases hits with
  | nil => trivial
  | cons hit rest =>
    obtain ⟨h1, h2⟩ := hh
    exact ⟨by omega, h2⟩

theorem collectHits_validFrom_aux (value : List Char) (resolved : List (List Char)) :
    ∀ (ps : List (Nat × List Char)) (q : Nat), PairsValid value q ps →
      ValidFrom value q (ps.filterMap (fun m =>
        if resolved.contains (lowerL m.2) then none
        else some ⟨m.1, m.1 + m.2.length + 1, m.2, sliceL value m.1 (m.1 + m.2.length + 1)⟩)) := by
  intro ps
  induction ps with
  | nil => intro q _; simp [ValidFrom]
  | cons m rest ih =>
    intro q hpv
    obtain ⟨hq, hlen, hat, htake, hrest⟩ := hpv
    rw [List.filterMap_cons]
    by_cases hres : resolved.contains (lowerL m.2) = true
    · simp only [hres, if_true]
      exact validFrom_mono value q (m.1 + 1 + m.2.length) (by omega) _ (ih _ hrest)
    · have hres' : resolved.contains (lowerL m.2) = false := by
        simpa using hres
      simp only [hres', Bool.false_eq_true, if_false]
      dsimp only [ValidFrom]
      refine ⟨hq, by omega, by omega, rfl, ?_⟩
      have heq : m.1 + m.2.length + 1 = m.1 + 1 + m.2.length := by omega
      rw [heq]
      exact ih _ hrest

theorem collectHits_validFrom (value : List Char) (resolved : List (List Char)) :
    ValidFrom value 0 (collectHits value resolved) :=
  collectHits_validFrom_aux value resolved _ 0 (scanAux_pairsValid value _ 0)

theorem sliceL_append_drop (v : List Char) (a b : Nat) (hab : a ≤ b) :
    sliceL v a b ++ v.drop b = v.drop a := by
  unfold sliceL
  have h1 := List.take_append_drop (b - a) (v.drop a)
  rw [List.drop_drop, show a + (b - a) = b by omega] at h1
  exact h1

theorem visTextAll_cons (x : MNode) (xs : List MNode) :
    visTextAll (x :: xs) = visText x ++ visTextAll xs := by
  simp [visTextAll]

theorem visText_createLinkNode (p : Profile) (raw : List Char) :
    visText (createLinkNode p raw) = raw := by
  simp [visText, createLinkNode]

theorem buildParts_visText (value : List Char) (profiles : List (List Char × Profile)) :
    ∀ (hits : List Hit) (cursor : Nat), ValidFrom value cursor hits →
      visTextAll (buildParts value profiles hits cursor) = value.drop cursor := by
  intro hits
  induction hits with
  | nil =>
    intro cursor _
    by_cases hc : cursor < value.length
    · simp [buildParts, hc, visTextAll, visText]
    · simp only [buildParts, hc, if_false]
      rw [List.drop_eq_nil_of_le (by omega)]
      simp [visTextAll]
  | cons hit rest ih =>
    intro cursor hv
    obtain ⟨hc1, hc2, hc3, hraw, hrest⟩ := hv
    rw [buildParts]
    cases hp : lookupProf profiles (lowerL hit.handle) with
    | none => exact ih cursor (validFrom_mono _ cursor hit.stop (by omega) _ hrest)
    | some p =>
      have hihs := ih hit.stop hrest
      by_cases hcs : cursor < hit.start
      · simp only [hcs, if_true]
        rw [List.singleton_append, visTextAll_cons, visTextAll_cons,
          visText_createLinkNode, hihs, hraw]
        show sliceL value cursor hit.start ++
          (sliceL value hit.start hit.stop ++ value.drop hit.stop) = value.drop cursor
        rw [sliceL_append_drop value hit.start hit.stop (by omega),
          sliceL_append_drop value cursor hit.start (by omega)]
      · have hceq : cursor = hit.start := by omega
        simp only [hcs, if_false, List.nil_append]
        rw [visTextAll_cons, visText_createLinkNode, hihs, hraw, hceq]
        exact sliceL_append_drop value hit.start hit.stop (by omega)

theorem buildParts_all_fail (value : List Char) (profiles : List (List Char × Profile)) :
    ∀ (hits : List Hit) (cursor : Nat),
      (∀ hit ∈ hits, lookupProf profiles (lowerL hit.handle) = none) →
      buildParts value profiles hits cursor =
        if cursor < value.length then [MNode.text (value.drop cursor)] else [] := by
  intro hits
  induction hits with
  | nil => intro cursor _; rw [buildParts]
  | cons hit rest ih =>
    intro cursor hfail
    rw [buildParts, hfail hit (List.mem_cons_self hit rest)]
    exact ih cursor (fun h hh => hfail h (List.mem_cons_of_mem hit hh))

theorem buildParts_links (value : List Char) (profiles : List (List Char × Profile)) :
    ∀ (hits : List Hit) (cursor : Nat) (part : MNode),
      part ∈ buildParts value profiles hits cursor → isLinkNode part = true →
      ∃ hit, hit ∈ hits ∧ ∃ p, lookupProf profiles (lowerL hit.handle) = some p ∧
        part = createLinkNode p hit.raw := by
  intro hits
  induction hits with
  | nil =>
    intro cursor part hmem hlink
    rw [buildParts] at hmem
    split at hmem
    · rcases List.mem_singleton.mp hmem with rfl
      simp [isLinkNode] at hlink
    · simp at hmem
  | cons hit rest ih =>
    intro cursor part hmem hlink
    rw [buildParts] at hmem
    cases hp : lookupProf profiles (lowerL hit.handle) with
    | none =>
      rw [hp] at hmem
      obtain ⟨h, hh, hrest⟩ := ih cursor part hmem hlink
      exact ⟨h, List.mem_cons_of_mem hit hh, hrest⟩
    | some p =>
      rw [hp] at hmem
      rcases List.mem_append.mp hmem with hleft | hright
      · split at hleft
        · rcases List.mem_singleton.mp hleft with rfl
          simp [isLinkNode] at hlink
        · simp at hleft
      · rcases List.mem_cons.mp hright with rfl | htail
        · exact ⟨hit, List.mem_cons_self hit rest, p, hp, rfl⟩
        · obtain ⟨h, hh, hrest⟩ := ih hit.stop part htail hlink
          exact ⟨h, List.mem_cons_of_mem hit hh, hrest⟩

theorem collectHits_mem_sound (value : List Char) (resolved : List (List Char)) (hit : Hit)
    (hmem : hit ∈ collectHits value resolved) :
    hit.stop = hit.start + hit.handle.length + 1 ∧
    hit.raw = sliceL value hit.start hit.stop ∧
    hit.raw = '@' :: hit.handle ∧
    (hit.start = 0 ∨ ∃ c, value.get? (hit.start - 1) = some c ∧ isBoundaryCh c = true) := by
  unfold collectHits at hmem
  rcases List.mem_filterMap.mp hmem with ⟨m, hm, hf⟩
  by_cases hres : resolved.contains (lowerL m.2) = true
  · have hmem2 : lowerL m.2 ∈ resolved := by simpa using hres
    simp [hmem2] at hf
  · have hres' : resolved.contains (lowerL m.2) = false := by simpa using hres
    simp only [hres', Bool.false_eq_true, if_false, Option.some.injEq] at hf
    subst hf
    have hs := scanAux_mem_sound value _ 0 m hm
    obtain ⟨_, hat, htake, hlen, hbound⟩ := hs
    refine ⟨rfl, rfl, ?_, hbound⟩
    show sliceL value m.1 (m.1 + m.2.length + 1) = '@' :: m.2
    unfold sliceL
    have hlt : m.1 < value.length := by
      rcases List.get?_eq_some.mp hat with ⟨hlt, _⟩
      exact hlt
    have hdrop : value.drop m.1 = '@' :: value.drop (m.1 + 1) := by
      have hg : value[m.1] = '@' := by
        rcases List.get?_eq_some.mp hat with ⟨h1, h2⟩
        simpa using h2
      rw [List.drop_eq_getElem_cons hlt, hg]
    rw [show m.1 + m.2.length + 1 - m.1 = m.2.length + 1 by omega, hdrop,
      List.take_succ_cons, htake]

/-- C10: a hit is collected only when its `@` is at the start of the node
value or immediately preceded by a whitespace, `(` or `[` character; an
`@` embedded inside a word (such as the email-like `a@b`) never matches. -/
theorem collectHits_at_boundary (value : List Char) (resolved : List (List Char)) (hit : Hit)
    (hmem : hit ∈ collectHits value resolved) :
    (hit.start = 0 ∨ ∃ c, value.get? (hit.start - 1) = some c ∧ isBoundaryCh c = true) ∧
    collectHits "a@b".toList resolved = [] :=
  ⟨(collectHits_mem_sound value resolved hit hmem).2.2.2, rfl⟩

/-- C10 witness: in `"ping @octocat please"` the collected hit's `@` at
index 5 is preceded by the whitespace at index 4; `"a@b"` yields no hit. -/
theorem collectHits_at_boundary_witness :
    ((5 : Nat) = 0 ∨ ∃ c, "ping @octocat please".toList.get? (5 - 1) = some c ∧
      isBoundaryCh c = true) ∧
    collectHits "a@b".toList [] = [] :=
  collectHits_at_boundary "ping @octocat please".toList []
    ⟨5, 13, "octocat".toList, "@octocat".toList⟩ (by decide)

/-- C3: for every text node, the spliced replacement produced by
`replaceTextNode` has exactly the original text as its concatenated
visible text, and every link node in it covers exactly one matched token
span: its visible text is the original matched slice, starting with the
leading `@` followed by the handle. -/
theorem replaceTextNode_splice_exact (value : List Char) (resolved : List (List Char))
    (profiles : List (List Char × Profile)) :
    visTextAll (replaceTextNode value (collectHits value resolved) profiles) = value ∧
    ∀ part ∈ replaceTextNode value (collectHits value resolved) profiles,
      isLinkNode part = true →
      ∃ hit, hit ∈ collectHits value resolved ∧ ∃ p,
        lookupProf profiles (lowerL hit.handle) = some p ∧
        part = createLinkNode p hit.raw ∧
        hit.raw = sliceL value hit.start hit.stop ∧ hit.raw = '@' :: hit.handle := by
  constructor
  · have h := buildParts_visText value profiles (collectHits value resolved) 0
      (collectHits_validFrom value resolved)
    simpa [replaceTextNode] using h
  · intro part hmem hlink
    obtain ⟨hit, hh, p, hp, hpart⟩ := buildParts_links value profiles _ 0 part hmem hlink
    have hs := collectHits_mem_sound value resolved hit hh
    exact ⟨hit, hh, p, hp, hpart, hs.2.1, hs.2.2.1⟩

/-- C3 witness: the scenario text splits into `"ping "`, a link with
visible text `"@octocat"`, and `" please review"`, and its concatenated
visible text is the original string. -/
theorem replaceTextNode_splice_exact_witness :
    visTextAll (replaceTextNode "ping @octocat please review".toList
      (collectHits "ping @octocat please review".toList [])
      [("octocat".toList, ⟨"octocat".toList, "https://github.com/octocat".toList⟩)]) =
      "ping @octocat please review".toList :=
  (replaceTextNode_splice_exact "ping @octocat please review".toList []
    [("octocat".toList, ⟨"octocat".toList, "https://github.com/octocat".toList⟩)]).1

/-- C5: a text node all of whose collected mentions fail to resolve is
replaced by the single unchanged text node: byte-for-byte the original
value, with no link inserted; the (total) splice cannot fail. -/
theorem replaceTextNode_unresolved_left_intact (value : List Char)
    (resolved : List (List Char)) (profiles : List (List Char × Profile))
    (hne : collectHits value resolved ≠ [])
    (hfail : ∀ hit ∈ collectHits value resolved,
      lookupProf profiles (lowerL hit.handle) = none) :
    replaceTextNode value (collectHits value resolved) profiles = [MNode.text value] := by
  have hlen : 0 < value.length := by
    cases hv : value with
    | nil =>
      exfalso
      apply hne
      rw [hv]
      rfl
    | cons c cs => simp
  rw [replaceTextNode, buildParts_all_fail value profiles _ 0 hfail, if_pos hlen,
    List.drop_zero]

/-- C5 witness: the handle `doesnotexist123` that the remote reports as
missing leaves the text unchanged with no link inserted. -/
theorem replaceTextNode_unresolved_left_intact_witness :
    replaceTextNode "hi @doesnotexist123 x".toList
      (collectHits "hi @doesnotexist123 x".toList []) [] =
      [MNode.text "hi @doesnotexist123 x".toList] :=
  replaceTextNode_unresolved_left_intact "hi @doesnotexist123 x".toList [] []
    (by decide) (by decide)

theorem chunkArrayAux_length {α : Type} (k : Nat) (hk : 0 < k) :
    ∀ (fuel : Nat) (l : List α), l.length ≤ fuel →
      (chunkArrayAux k fuel l).length = (l.length + k - 1) / k := by
  intro fuel
  induction fuel with
  | zero =>
    intro l hl
    have hnil : l = [] := List.eq_nil_of_length_eq_zero (by omega)
    subst hnil
    simp only [chunkArrayAux, List.length_nil]
    exact (Nat.div_eq_of_lt (by omega)).symm
  | succ n ih =>
    intro l hl
    cases l with
    | nil =>
      simp only [chunkArrayAux, List.length_nil]
      exact (Nat.div_eq_of_lt (by omega)).symm
    | cons a rest =>
      rw [chunkArrayAux]
      simp only [List.length_cons] at hl
      have hrec := ih ((a :: rest).drop k)
        (by simp only [List.length_drop, List.length_cons]; omega)
      simp only [List.length_cons, hrec, List.length_drop]
      by_cases hle : rest.length + 1 ≤ k
      · rw [show rest.length + 1 - k = 0 by omega]
        rw [Nat.div_eq_of_lt (by omega : 0 + k - 1 < k)]
        rw [Nat.div_eq_of_lt_le (by omega : 1 * k ≤ rest.length + 1 + k - 1)
            (by omega : rest.length + 1 + k - 1 < (1 + 1) * k)]
      · rw [show rest.length + 1 - k + k - 1 = rest.length + 1 - 1 by omega,
          show rest.length + 1 + k - 1 = (rest.length + 1 - 1) + k by omega,
          Nat.add_div_right _ hk]

theorem chunkArray_length {α : Type} (l : List α) (k : Nat) (hk : 0 < k) :
    (chunkArray l k).length = (l.length + k - 1) / k := by
  unfold chunkArray
  rw [if_neg (by omega)]
  exact chunkArrayAux_length k hk l.length l (le_refl _)

theorem insertSorted_length (n : Nat) (l : List Nat) :
    (insertSorted n l).length = l.length + 1 := by
  induction l with
  | nil => rfl
  | cons m ms ih =>
    rw [insertSorted]
    split
    · rfl
    · simp [ih]

theorem sortNats_length (l : List Nat) : (sortNats l).length = l.length := by
  unfold sortNats
  induction l with
  | nil => rfl
  | cons a t ih => simp [List.foldr_cons, insertSorted_length, ih]

theorem repoEntries_length (reqs : List IssueReq) :
    (repoEntries reqs).length = ((repoToNumbers reqs).map (fun g =>
      (g.2.length + MAX_ISSUES_PER_REPO - 1) / MAX_ISSUES_PER_REPO)).sum := by
  unfold repoEntries
  rw [List.length_flatten, List.map_map]
  congr 1
  apply List.map_congr_left
  intro g _
  simp only [Function.comp_apply, List.length_map]
  rw [chunkArray_length _ _ (by unfold MAX_ISSUES_PER_REPO; omega), sortNats_length]

theorem insertReq_ne_nil (acc : List (String × List Nat)) (r : IssueReq)
    (h : ∀ g ∈ acc, g.2 ≠ []) : ∀ g ∈ insertReq acc r, g.2 ≠ [] := by
  induction acc with
  | nil =>
    intro g hg
    rw [insertReq] at hg
    rcases List.mem_singleton.mp hg with rfl
    simp
  | cons a rest ih =>
    intro g hg
    rw [insertReq] at hg
    split at hg
    · rcases List.mem_cons.mp hg with rfl | htail
      · show addNumber a.2 r.issueNumber ≠ []
        unfold addNumber
        split
        · exact h a (List.mem_cons_self a rest)
        · simp
      · exact h g (List.mem_cons_of_mem a htail)
    · rcases List.mem_cons.mp hg with rfl | htail
      · exact h _ (List.mem_cons_self _ rest)
      · exact ih (fun g' hg' => h g' (List.mem_cons_of_mem a hg')) g htail

theorem foldl_insertReq_ne_nil :
    ∀ (reqs : List IssueReq) (acc : List (String × List Nat)),
      (∀ g ∈ acc, g.2 ≠ []) → ∀ g ∈ reqs.foldl insertReq acc, g.2 ≠ [] := by
  intro reqs
  induction reqs with
  | nil => intro acc h; simpa using h
  | cons r rest ih =>
    intro acc h
    rw [List.foldl_cons]
    exact ih (insertReq acc r) (insertReq_ne_nil acc r h)

theorem repoToNumbers_ne_nil (reqs : List IssueReq) :
    ∀ g ∈ repoToNumbers reqs, g.2 ≠ [] :=
  foldl_insertReq_ne_nil reqs [] (by simp)

/-- C2: the number of batched GraphQL requests is always
`ceil((sum over repositories of ceil(I_r / 20)) / 5)` where `I_r` counts
the repository's distinct issue numbers, and when every repository has at
most 20 distinct numbers this is exactly `ceil(R / 5)` for `R` distinct
repositories. -/
theorem fetchIssuesGraphQL_request_count (reqs : List IssueReq) :
    fetchIssuesGraphQLRequestCount reqs =
      (((repoToNumbers reqs).map (fun g =>
        (g.2.length + MAX_ISSUES_PER_REPO - 1) / MAX_ISSUES_PER_REPO)).sum +
        MAX_REPOS_PER_QUERY - 1) / MAX_REPOS_PER_QUERY ∧
    ((∀ g ∈ repoToNumbers reqs, g.2.length ≤ MAX_ISSUES_PER_REPO) →
      fetchIssuesGraphQLRequestCount reqs =
        ((repoToNumbers reqs).length + MAX_REPOS_PER_QUERY - 1) / MAX_REPOS_PER_QUERY) := by
  have hgen : fetchIssuesGraphQLRequestCount reqs =
      (((repoToNumbers reqs).map (fun g =>
        (g.2.length + MAX_ISSUES_PER_REPO - 1) / MAX_ISSUES_PER_REPO)).sum +
        MAX_REPOS_PER_QUERY - 1) / MAX_REPOS_PER_QUERY := by
    by_cases hreqs : reqs.isEmpty
    · have hnil : reqs = [] := List.isEmpty_iff.mp hreqs
      subst hnil
      rfl
    · unfold fetchIssuesGraphQLRequestCount
      rw [if_neg hreqs, chunkArray_length _ _ (by unfold MAX_REPOS_PER_QUERY; omega),
        repoEntries_length]
  refine ⟨hgen, ?_⟩
  intro hb
  rw [hgen]
  congr 1
  have hone : ∀ g ∈ repoToNumbers reqs,
      (g.2.length + MAX_ISSUES_PER_REPO - 1) / MAX_ISSUES_PER_REPO = 1 := by
    intro g hg
    have h1 : g.2 ≠ [] := repoToNumbers_ne_nil reqs g hg
    have h2 : 1 ≤ g.2.length := by
      cases hgl : g.2 with
      | nil => exact absurd hgl h1
      | cons x xs => simp
    have h3 := hb g hg
    unfold MAX_ISSUES_PER_REPO at h3 ⊢
    exact Nat.div_eq_of_lt_le (by omega) (by omega)
  rw [List.map_congr_left hone]
  simp

/-- C2 witness: two distinct repositories with at most 20 issues each
take exactly one batched request (`ceil(2/5) = 1`). -/
theorem fetchIssuesGraphQL_request_count_witness :
    fetchIssuesGraphQLRequestCount [⟨"a/b", 1⟩, ⟨"a/b", 2⟩, ⟨"c/d", 3⟩] = 1 :=
  ((fetchIssuesGraphQL_request_count [⟨"a/b", 1⟩, ⟨"a/b", 2⟩, ⟨"c/d", 3⟩]).2
    (by decide)).trans (by decide)

theorem splitWsAux_good (cs : List Char) :
    ∀ acc : List Char, (∀ c ∈ acc, isWsCh c = false) →
      ∀ w ∈ splitWsAux cs acc, w ≠ [] ∧ ∀ c ∈ w, isWsCh c = false := by
  induction cs with
  | nil =>
    intro acc hacc w hw
    rw [splitWsAux] at hw
    split at hw
    · simp at hw
    · rcases List.mem_singleton.mp hw with rfl
      constructor
      · simpa using (by assumption : ¬ acc = [])
      · intro c hc
        exact hacc c (List.mem_reverse.mp hc)
  | cons c rest ih =>
    intro acc hacc w hw
    rw [splitWsAux] at hw
    by_cases hws : isWsCh c = true
    · rw [if_pos hws] at hw
      split at hw
      · exact ih [] (by simp) w hw
      · rcases List.mem_cons.mp hw with rfl | htail
        · constructor
          · simpa using (by assumption : ¬ acc = [])
          · intro c' hc'
            exact hacc c' (List.mem_reverse.mp hc')
        · exact ih [] (by simp) w htail
    · rw [if_neg hws] at hw
      refine ih (c :: acc) ?_ w hw
      intro c' hc'
      rcases List.mem_cons.mp hc' with rfl | h
      · simpa using hws
      · exact hacc c' h

theorem splitWsAux_token (w : List Char) (hw : ∀ c ∈ w, isWsCh c = false) :
    ∀ (t acc : List Char), splitWsAux (w ++ t) acc = splitWsAux t (w.reverse ++ acc) := by
  induction w with
  | nil => intro t acc; simp
  | cons c w' ih =>
    intro t acc
    have hc : isWsCh c = false := hw c (List.mem_cons_self c w')
    rw [List.cons_append, splitWsAux, if_neg (by simp [hc])]
    rw [ih (fun c' hc' => hw c' (List.mem_cons_of_mem c hc')) t (c :: acc)]
    congr 1
    simp

theorem splitWs_joinSpace (l : List (List Char))
    (hl : ∀ w ∈ l, w ≠ [] ∧ ∀ c ∈ w, isWsCh c = false) :
    splitWs (joinSpace l) = l := by
  induction l with
  | nil => rfl
  | cons w ws ih =>
    have hwgood := hl w (List.mem_cons_self w ws)
    cases ws with
    | nil =>
      show splitWsAux (joinSpace [w]) [] = [w]
      have h1 : joinSpace [w] = w ++ [] := by simp [joinSpace]
      rw [h1, splitWsAux_token w hwgood.2 [] [], splitWsAux]
      rw [if_neg (by simpa using hwgood.1)]
      simp
    | cons w2 ws2 =>
      show splitWsAux (joinSpace (w :: w2 :: ws2)) [] = w :: w2 :: ws2
      have h1 : joinSpace (w :: w2 :: ws2) = w ++ (' ' :: joinSpace (w2 :: ws2)) := rfl
      rw [h1, splitWsAux_token w hwgood.2 _ [], splitWsAux,
        if_pos (by simp [isWsCh] : isWsCh ' ' = true)]
      rw [if_neg (by simpa using hwgood.1)]
      have ih2 := ih (fun v hv => hl v (List.mem_cons_of_mem w hv))
      simp only [List.append_nil, List.reverse_reverse]
      exact congrArg (w :: ·) ih2

theorem joinSpace_append (l1 l2 : List (List Char)) (h1 : l1 ≠ []) (h2 : l2 ≠ []) :
    joinSpace (l1 ++ l2) = joinSpace l1 ++ ' ' :: joinSpace l2 := by
  induction l1 with
  | nil => exact absurd rfl h1
  | cons w l1' ih =>
    cases l1' with
    | nil =>
      cases l2 with
      | nil => exact absurd rfl h2
      | cons x xs => rfl
    | cons w2 l1'' =>
      have := ih (by simp)
      show joinSpace (w :: (w2 :: l1'' ++ l2)) = (w ++ ' ' :: joinSpace (w2 :: l1'')) ++ ' ' :: joinSpace l2
      cases hcl : w2 :: l1'' ++ l2 with
      | nil => simp at hcl
      | cons y ys =>
        rw [← hcl]
        show w ++ ' ' :: joinSpace (w2 :: l1'' ++ l2) = (w ++ ' ' :: joinSpace (w2 :: l1'')) ++ ' ' :: joinSpace l2
        rw [this]
        simp

theorem joinSpace_ne_nil (l : List (List Char)) (hne : l ≠ [])
    (hl : ∀ w ∈ l, w ≠ []) : joinSpace l ≠ [] := by
  cases l with
  | nil => exact absurd rfl hne
  | cons w ws =>
    cases ws with
    | nil => exact hl w (List.mem_cons_self w [])
    | cons w2 ws2 =>
      show w ++ ' ' :: joinSpace (w2 :: ws2) ≠ []
      simp

theorem mem_insertClass (acc : List (List Char)) (x a : List Char) :
    a ∈ insertClass acc x ↔ a ∈ acc ∨ a = x := by
  unfold insertClass
  split
  next hx =>
    constructor
    · exact Or.inl
    · rintro (h | rfl)
      · exact h
      · exact hx
  next hx => simp

theorem mem_foldl_insertClass :
    ∀ (l acc : List (List Char)) (a : List Char),
      a ∈ l.foldl insertClass acc ↔ a ∈ acc ∨ a ∈ l := by
  intro l
  induction l with
  | nil => intro acc a; simp
  | cons x xs ih =>
    intro acc a
    rw [List.foldl_cons, ih]
    rw [mem_insertClass]
    constructor
    · rintro ((h | rfl) | h)
      · exact Or.inl h
      · exact Or.inr (List.mem_cons_self _ _)
      · exact Or.inr (List.mem_cons_of_mem _ h)
    · rintro (h | h)
      · exact Or.inl (Or.inl h)
      · rcases List.mem_cons.mp h with rfl | h2
        · exact Or.inl (Or.inr rfl)
        · exact Or.inr h2

theorem nodup_insertClass (acc : List (List Char)) (x : List Char) (h : acc.Nodup) :
    (insertClass acc x).Nodup := by
  unfold insertClass
  split
  next => exact h
  next hx => simp [List.nodup_append, h, hx]

theorem nodup_foldl_insertClass :
    ∀ (l acc : List (List Char)), acc.Nodup → (l.foldl insertClass acc).Nodup := by
  intro l
  induction l with
  | nil => intro acc h; exact h
  | cons x xs ih =>
    intro acc h
    rw [List.foldl_cons]
    exact ih _ (nodup_insertClass acc x h)

theorem foldl_insertClass_fixed :
    ∀ (l acc : List (List Char)), (∀ e ∈ l, e ∈ acc) → l.foldl insertClass acc = acc := by
  intro l
  induction l with
  | nil => intro acc _; rfl
  | cons x xs ih =>
    intro acc h
    rw [List.foldl_cons]
    have hx : insertClass acc x = acc := by
      unfold insertClass
      exact if_pos (h x (List.mem_cons_self x xs))
    rw [hx]
    exact ih acc (fun e he => h e (List.mem_cons_of_mem x he))

theorem foldl_insertClass_nodup_id :
    ∀ (l acc : List (List Char)), (acc ++ l).Nodup → l.foldl insertClass acc = acc ++ l := by
  intro l
  induction l with
  | nil => intro acc _; simp
  | cons x xs ih =>
    intro acc h
    have hx : x ∉ acc := by
      intro hmem
      rw [List.nodup_append] at h
      exact h.2.2 hmem (List.mem_cons_self x xs)
    rw [List.foldl_cons]
    have h1 : insertClass acc x = acc ++ [x] := by
      unfold insertClass
      exact if_neg hx
    rw [h1, ih (acc ++ [x]) (by simpa using h)]
    simp

theorem mem_dedupFirst (l : List (List Char)) (a : List Char) :
    a ∈ dedupFirst l ↔ a ∈ l := by
  unfold dedupFirst
  rw [mem_foldl_insertClass]
  simp

theorem nodup_dedupFirst (l : List (List Char)) : (dedupFirst l).Nodup :=
  nodup_foldl_insertClass l [] (by simp)

theorem dedupFirst_of_nodup (l : List (List Char)) (h : l.Nodup) : dedupFirst l = l := by
  unfold dedupFirst
  have := foldl_insertClass_nodup_id l [] (by simpa using h)
  simpa using this

theorem applyLinkMetadata_fields (n : LinkNode) (d : Details) :
    applyLinkMetadata n d =
      { propsClass := joinSpace (dedupFirst (splitWs (existingClassStr n) ++
          ["github-issue-link".toList, "github-issue-link--".toList ++ d.state]))
        propsClassName := joinSpace (dedupFirst (splitWs (existingClassStr n) ++
          ["github-issue-link".toList, "github-issue-link--".toList ++ d.state]))
        nodeClass := joinSpace (dedupFirst (splitWs (existingClassStr n) ++
          ["github-issue-link".toList, "github-issue-link--".toList ++ d.state]))
        dataState := d.state
        dataStateReason := if d.state_reason = [] then none else some d.state_reason
        dataIssueTitle := d.title
        title := if n.title = [] then d.title ++ " (".toList ++ upperL d.state ++ [')']
          else n.title } := rfl

/-- C4: `applyLinkMetadata` is additive and idempotent on style classes:
a second application with the same details returns the node unchanged,
the resulting class list carries no duplicates, and every class present
on the node before the call is still present after it. -/
theorem applyLinkMetadata_classes_idempotent (node : LinkNode) (d : Details)
    (hstate : ∀ c ∈ d.state, isWsCh c = false) :
    applyLinkMetadata (applyLinkMetadata node d) d = applyLinkMetadata node d ∧
    (classListOf (applyLinkMetadata node d)).Nodup ∧
    (∀ c ∈ splitWs (existingClassStr node), c ∈ classListOf (applyLinkMetadata node d)) := by
  have hgilgood : "github-issue-link".toList ≠ [] ∧
      ∀ c ∈ "github-issue-link".toList, isWsCh c = false := by
    refine ⟨by decide, by decide⟩
  have hgilSgood : "github-issue-link--".toList ++ d.state ≠ [] ∧
      ∀ c ∈ "github-issue-link--".toList ++ d.state, isWsCh c = false := by
    constructor
    · exact List.append_ne_nil_of_left_ne_nil (by decide) _
    · intro c hc
      rcases List.mem_append.mp hc with h1 | h2
      · exact (by decide : ∀ c ∈ "github-issue-link--".toList, isWsCh c = false) c h1
      · exact hstate c h2
  have hexgood : ∀ w ∈ splitWs (existingClassStr node),
      w ≠ [] ∧ ∀ c ∈ w, isWsCh c = false :=
    splitWsAux_good _ [] (by simp)
  have hmergedgood : ∀ w ∈ dedupFirst (splitWs (existingClassStr node) ++
      ["github-issue-link".toList, "github-issue-link--".toList ++ d.state]),
      w ≠ [] ∧ ∀ c ∈ w, isWsCh c = false := by
    intro w hw
    rcases List.mem_append.mp ((mem_dedupFirst _ _).mp hw) with h1 | h2
    · exact hexgood w h1
    · rcases List.mem_cons.mp h2 with rfl | h3
      · exact hgilgood
      · rcases List.mem_singleton.mp h3 with rfl
        exact hgilSgood
  have hmerged_ne : dedupFirst (splitWs (existingClassStr node) ++
      ["github-issue-link".toList, "github-issue-link--".toList ++ d.state]) ≠ [] := by
    apply List.ne_nil_of_mem (a := "github-issue-link".toList)
    exact (mem_dedupFirst _ _).mpr
      (List.mem_append.mpr (Or.inr (List.mem_cons_self _ _)))
  have hclasslist : classListOf (applyLinkMetadata node d) =
      dedupFirst (splitWs (existingClassStr node) ++
        ["github-issue-link".toList, "github-issue-link--".toList ++ d.state]) := by
    show splitWs (applyLinkMetadata node d).nodeClass = _
    exact splitWs_joinSpace _ hmergedgood
  refine ⟨?_, ?_, ?_⟩
  · have hcs_ne : joinSpace (dedupFirst (splitWs (existingClassStr node) ++
        ["github-issue-link".toList, "github-issue-link--".toList ++ d.state])) ≠ [] :=
      joinSpace_ne_nil _ hmerged_ne (fun w hw => (hmergedgood w hw).1)
    have hex1 : existingClassStr (applyLinkMetadata node d) =
        joinSpace (dedupFirst (splitWs (existingClassStr node) ++
          ["github-issue-link".toList, "github-issue-link--".toList ++ d.state])) ++
        ' ' :: joinSpace (dedupFirst (splitWs (existingClassStr node) ++
          ["github-issue-link".toList, "github-issue-link--".toList ++ d.state])) := by
      have hp : (applyLinkMetadata node d).propsClass =
          joinSpace (dedupFirst (splitWs (existingClassStr node) ++
            ["github-issue-link".toList, "github-issue-link--".toList ++ d.state])) := rfl
      have hpn : (applyLinkMetadata node d).propsClassName =
          joinSpace (dedupFirst (splitWs (existingClassStr node) ++
            ["github-issue-link".toList, "github-issue-link--".toList ++ d.state])) := rfl
      have hnc : (applyLinkMetadata node d).nodeClass =
          joinSpace (dedupFirst (splitWs (existingClassStr node) ++
            ["github-issue-link".toList, "github-issue-link--".toList ++ d.state])) := rfl
      conv_lhs => rw [existingClassStr, hp, hpn, hnc]
      unfold firstNonempty
      rw [if_neg hcs_ne]
    have hsplit2 : splitWs (existingClassStr (applyLinkMetadata node d)) =
        dedupFirst (splitWs (existingClassStr node) ++
          ["github-issue-link".toList, "github-issue-link--".toList ++ d.state]) ++
        dedupFirst (splitWs (existingClassStr node) ++
          ["github-issue-link".toList, "github-issue-link--".toList ++ d.state]) := by
      rw [hex1, ← joinSpace_append _ _ hmerged_ne hmerged_ne]
      apply splitWs_joinSpace
      intro w hw
      rcases List.mem_append.mp hw with h | h
      · exact hmergedgood w h
      · exact hmergedgood w h
    have hgil_mem : "github-issue-link".toList ∈
        dedupFirst (splitWs (existingClassStr node) ++
          ["github-issue-link".toList, "github-issue-link--".toList ++ d.state]) :=
      (mem_dedupFirst _ _).mpr (List.mem_append.mpr (Or.inr (List.mem_cons_self _ _)))
    have hgilS_mem : "github-issue-link--".toList ++ d.state ∈
        dedupFirst (splitWs (existingClassStr node) ++
          ["github-issue-link".toList, "github-issue-link--".toList ++ d.state]) :=
      (mem_dedupFirst _ _).mpr (List.mem_append.mpr (Or.inr (by simp)))
    have hdedup2 : dedupFirst ((dedupFirst (splitWs (existingClassStr node) ++
          ["github-issue-link".toList, "github-issue-link--".toList ++ d.state]) ++
        dedupFirst (splitWs (existingClassStr node) ++
          ["github-issue-link".toList, "github-issue-link--".toList ++ d.state])) ++
        ["github-issue-link".toList, "github-issue-link--".toList ++ d.state]) =
        dedupFirst (splitWs (existingClassStr node) ++
          ["github-issue-link".toList, "github-issue-link--".toList ++ d.state]) := by
      show List.foldl insertClass [] _ = _
      rw [List.foldl_append, List.foldl_append]
      have h0 : List.foldl insertClass [] (dedupFirst (splitWs (existingClassStr node) ++
          ["github-issue-link".toList, "github-issue-link--".toList ++ d.state])) =
          dedupFirst (splitWs (existingClassStr node) ++
            ["github-issue-link".toList, "github-issue-link--".toList ++ d.state]) :=
        dedupFirst_of_nodup _ (nodup_dedupFirst _)
      rw [h0]
      rw [foldl_insertClass_fixed _ _ (fun e he => he)]
      apply foldl_insertClass_fixed
      intro e he
      rcases List.mem_cons.mp he with rfl | h3
      · exact hgil_mem
      · rcases List.mem_singleton.mp h3 with rfl
        exact hgilS_mem
    have htitle_ne : (applyLinkMetadata node d).title ≠ [] := by
      show (if node.title = [] then d.title ++ " (".toList ++ upperL d.state ++ [')']
        else node.title) ≠ []
      split
      · simp
      · next h => exact h
    rw [applyLinkMetadata_fields (applyLinkMetadata node d) d, hsplit2, hdedup2,
      if_neg htitle_ne]
    rfl
  · rw [hclasslist]
    exact nodup_dedupFirst _
  · intro c hc
    rw [hclasslist, mem_dedupFirst]
    exact List.mem_append.mpr (Or.inl hc)

/-- C4 witness: a node already carrying classes `custom external` is a
fixed point of a second decoration, and `custom` survives the merge. -/
theorem applyLinkMetadata_classes_idempotent_witness :
    applyLinkMetadata (applyLinkMetadata
        ⟨"custom external".toList, [], [], [], none, [], []⟩
        ⟨"Add retries".toList, "open".toList, []⟩)
      ⟨"Add retries".toList, "open".toList, []⟩ =
      applyLinkMetadata ⟨"custom external".toList, [], [], [], none, [], []⟩
        ⟨"Add retries".toList, "open".toList, []⟩ ∧
    "custom".toList ∈ classListOf (applyLinkMetadata
      ⟨"custom external".toList, [], [], [], none, [], []⟩
      ⟨"Add retries".toList, "open".toList, []⟩) := by
  have h := applyLinkMetadata_classes_idempotent
    ⟨"custom external".toList, [], [], [], none, [], []⟩
    ⟨"Add retries".toList, "open".toList, []⟩ (by decide)
  exact ⟨h.1, h.2.2 "custom".toList (by decide)⟩

mutual
theorem collectAux_parent_not_skip (resolved : List (List Char)) :
    ∀ (pTy : Option String) (n : HNode) (m : TreeMention),
      m ∈ collectTextMentionsAux resolved pTy n →
      ∀ t, m.parentTy = some t → skipParents.contains t = false
  | pTy, HNode.mk ty v children, m => by
    intro hm t hpt
    rw [collectTextMentionsAux.eq_def] at hm
    rcases List.mem_append.mp hm with hhead | htail
    · split at hhead
      next hcond =>
        rcases List.mem_singleton.mp hhead with rfl
        have hpt' : pTy = some t := hpt
        subst hpt'
        simp only [Bool.and_eq_true] at hcond
        simpa using hcond.1.2
      next => simp at hhead
    · exact collectList_parent_not_skip resolved ty children m htail t hpt

theorem collectList_parent_not_skip (resolved : List (List Char)) :
    ∀ (pTy : String) (children : List HNode) (m : TreeMention),
      m ∈ collectTextMentionsList resolved pTy children →
      ∀ t, m.parentTy = some t → skipParents.contains t = false
  | pTy, [], m => by
    intro hm
    rw [collectTextMentionsList.eq_def] at hm
    simp at hm
  | pTy, c :: cs, m => by
    intro hm t hpt
    rw [collectTextMentionsList.eq_def] at hm
    rcases List.mem_append.mp hm with h1 | h2
    · exact collectAux_parent_not_skip resolved (some pTy) c m h1 t hpt
    · exact collectList_parent_not_skip resolved pTy cs m h2 t hpt
end

theorem rewriteChildren_skip (resolved : List (List Char))
    (profiles : List (List Char × Profile)) (pTy : String)
    (hty : skipParents.contains pTy = true) :
    ∀ children : List HNode, rewriteChildren resolved profiles pTy children =
      children.map (rewriteTreeNode resolved profiles)
  | [] => rfl
  | c :: cs => by
    show (if (decide (c.ty = "text") && c.value.contains '@' && !skipParents.contains pTy &&
        !(collectHits c.value resolved).isEmpty) = true then
        mnodeToHList (replaceTextNode c.value (collectHits c.value resolved) profiles)
      else [rewriteTreeNode resolved profiles c]) ++
      rewriteChildren resolved profiles pTy cs =
      List.map (rewriteTreeNode resolved profiles) (c :: cs)
    rw [if_neg (by
      have hmem : pTy ∈ skipParents := by simpa using hty
      simp [hmem])]
    rw [rewriteChildren_skip resolved profiles pTy hty cs]
    rfl

theorem rewriteTreeNode_text (resolved : List (List Char))
    (profiles : List (List Char × Profile)) (v : List Char) :
    rewriteTreeNode resolved profiles (HNode.mk "text" v []) = HNode.mk "text" v [] := rfl

/-- C9 counterexample: a text node whose direct parent is `emphasis` but
whose grandparent is a `link` node is still scanned — the collector
records its mention — and the rewriter splices a handle link into it,
because `SKIP_PARENTS` is only checked against the direct parent, not
every ancestor. -/
theorem collect_inside_link_counterexample :
    collectTextMentionsTree []
      (HNode.mk "link" [] [HNode.mk "emphasis" []
        [HNode.mk "text" "hi @octocat".toList []]]) =
      [⟨some "emphasis", "hi @octocat".toList,
        [⟨3, 11, "octocat".toList, "@octocat".toList⟩]⟩] ∧
    rewriteTreeNode []
      [("octocat".toList, ⟨"octocat".toList, "https://github.com/octocat".toList⟩)]
      (HNode.mk "link" [] [HNode.mk "emphasis" []
        [HNode.mk "text" "hi @octocat".toList []]]) =
      HNode.mk "link" [] [HNode.mk "emphasis" []
        [HNode.mk "text" "hi ".toList [],
         HNode.mk "link" [] [HNode.mk "text" "@octocat".toList []]]] := by
  constructor <;> rfl

/-- C9 (amended to the direct parent): every mention the scanner collects
sits in a text node whose direct parent type is outside `SKIP_PARENTS`;
the rewriter never splices the children of a `SKIP_PARENTS` node, and a
plain text node is left unchanged by the rewrite — so `@handle` tokens
directly inside code spans, definitions or already-formed links survive
the pass untouched. -/
theorem skip_parent_text_protected (resolved : List (List Char))
    (profiles : List (List Char × Profile)) (root : HNode) :
    (∀ m ∈ collectTextMentionsTree resolved root,
      ∀ t, m.parentTy = some t → skipParents.contains t = false) ∧
    (∀ (ty : String) (v : List Char) (children : List HNode),
      skipParents.contains ty = true →
      rewriteTreeNode resolved profiles (HNode.mk ty v children) =
        HNode.mk ty v (children.map (rewriteTreeNode resolved profiles))) ∧
    (∀ v : List Char,
      rewriteTreeNode resolved profiles (HNode.mk "text" v []) = HNode.mk "text" v []) := by
  refine ⟨?_, ?_, ?_⟩
  · intro m hm t hpt
    exact collectAux_parent_not_skip resolved none root m hm t hpt
  · intro ty v children hty
    show HNode.mk ty v (rewriteChildren resolved profiles ty children) = _
    rw [rewriteChildren_skip resolved profiles ty hty children]
  · intro v
    exact rewriteTreeNode_text resolved profiles v

/-- C9 witness: an `inlineCode` node with a text child containing a
mention is left exactly as it was. -/
theorem skip_parent_text_protected_witness :
    rewriteTreeNode [] []
      (HNode.mk "inlineCode" [] [HNode.mk "text" "see @octocat".toList []]) =
      HNode.mk "inlineCode" [] [HNode.mk "text" "see @octocat".toList []] := by
  have h := skip_parent_text_protected [] []
    (HNode.mk "inlineCode" [] [HNode.mk "text" "see @octocat".toList []])
  rw [h.2.1 "inlineCode" [] [HNode.mk "text" "see @octocat".toList []] (by decide),
    List.map_cons, h.2.2 "see @octocat".toList]
  rfl
